import Mathlib

/-
  Verification of the Clear Spotify visualizer audio daemon
  (native/windows + native/linux sources: main.cpp, fft.h).

  The numeric pipeline (fft.h) is embedded over exact rationals.  The C
  sources compute with IEEE floats and the transcendental functions cosf,
  sinf, sqrtf, powf, log10f; those transcendental values are abstracted as
  function parameters (window, tw, msqrt, lg, freq), so every theorem below
  holds for all values of them, in particular for the float approximations
  the program produces.  Integer casts are modelled exactly: the C cast
  (int) truncates toward zero, embedded as Int.tdiv on the numerator and
  denominator of a rational.

  The file named protocol.h, which defines the numeric protocol constants,
  is not part of the source tree; its constants are modelled from the spec.
-/

namespace ClearVis

/-- Modelled from the spec: protocol.h is missing from the source tree.
FFT window size, from spec section 8 (end-to-end property, FFT_SIZE=1024). -/
def FFT_SIZE : ℕ := 1024

/-- Modelled from the spec: protocol.h is missing from the source tree.
Number of visual bars, from spec section 8 (BAR_COUNT=24) and the main.cpp
comment describing 24 frequency bars. -/
def BAR_COUNT : ℕ := 24

/-- Modelled from the spec: protocol.h is missing from the source tree.
Audio sample rate, from spec section 8 (SAMPLE_RATE=44100). -/
def SAMPLE_RATE : ℕ := 44100

/-- Modelled from the spec: protocol.h is missing from the source tree.
Target send frame rate, from the main.cpp comment describing sending at
60 fps. -/
def SEND_FPS : ℕ := 60

/-- Complex value as in fft.h: struct Complex { float re, im; }, with the
float fields embedded as exact rationals. -/
structure Complex where
  re : ℚ
  im : ℚ
deriving DecidableEq, Repr

/-- The zero complex value. -/
def czero : Complex := ⟨0, 0⟩

/-- Embeds cadd from fft.h. -/
def cadd (a b : Complex) : Complex := ⟨a.re + b.re, a.im + b.im⟩

/-- Embeds csub from fft.h. -/
def csub (a b : Complex) : Complex := ⟨a.re - b.re, a.im - b.im⟩

/-- Embeds cmul from fft.h. -/
def cmul (a b : Complex) : Complex :=
  ⟨a.re * b.re - a.im * b.im, a.re * b.im + a.im * b.re⟩

/-- Reading buf at index i; C array reads in fft.h are always in range, the
default czero is never hit for the program's index arithmetic. -/
def getC (l : List Complex) (i : ℕ) : Complex := l.getD i czero

/-- Embeds the inner index-advance of bitReverse in fft.h: the loop
for (; j and bit; bit >>= 1) j ^= bit; followed by j ^= bit. -/
def brAdvance (j bit : ℕ) : ℕ :=
  if h : j &&& bit = 0 then j ^^^ bit
  else brAdvance (j ^^^ bit) (bit / 2)
termination_by bit
decreasing_by
  have hb : bit ≠ 0 := by
    intro h0
    subst h0
    exact h (Nat.and_zero j)
  exact Nat.div_lt_self (Nat.pos_of_ne_zero hb) one_lt_two

/-- Embeds bitReverse from fft.h: for i from 1 to n-1, advance the running
reversed counter j (starting at 0) and swap buf[i], buf[j] when i < j. -/
def bitReverse (buf : List Complex) (n : ℕ) : List Complex :=
  ((List.range (n - 1)).foldl
    (fun (st : ℕ × List Complex) k =>
      let i := k + 1
      let j := brAdvance st.1 (n >>> 1)
      let b :=
        if i < j then (st.2.set i (getC st.2 j)).set j (getC st.2 i) else st.2
      (j, b))
    (0, buf)).2

/-- Embeds the inner butterfly loop of fft in fft.h for block start i and
stage length len: the accumulator w starts at (1,0) and is multiplied by
wn after every butterfly. -/
def innerLoop (wn : Complex) (i len : ℕ) (buf : List Complex) : List Complex :=
  ((List.range (len / 2)).foldl
    (fun (st : Complex × List Complex) jj =>
      let w := st.1
      let b := st.2
      let u := getC b (i + jj)
      let v := cmul w (getC b (i + jj + len / 2))
      let b2 := (b.set (i + jj) (cadd u v)).set (i + jj + len / 2) (csub u v)
      (cmul w wn, b2))
    (⟨1, 0⟩, buf)).2

/-- Embeds one stage of fft in fft.h: for (int i = 0; i < n; i += len),
which performs exactly ceil(n / len) block iterations. -/
def stageLoop (wn : Complex) (len n : ℕ) (buf : List Complex) : List Complex :=
  (List.range ((n + len - 1) / len)).foldl
    (fun b q => innerLoop wn (q * len) len b) buf

/-- Embeds fft from fft.h: bit-reversal, then butterfly stages of length
2, 4, ..., up to n (the lengths 2^(s+1) with 2^(s+1) <= n).  The twiddle
value wn for a stage of length len, computed in C as
(cosf(-2*pi/len), sinf(-2*pi/len)), is abstracted as tw len. -/
def fft (tw : ℕ → Complex) (n : ℕ) (buf : List Complex) : List Complex :=
  (List.range (Nat.log2 n)).foldl
    (fun b s => stageLoop (tw (2 ^ (s + 1))) (2 ^ (s + 1)) n b)
    (bitReverse buf n)

/-- Embeds the windowing load loop of computeBars in fft.h:
buf[i].re = samples[i] * g_hanning[i]; buf[i].im = 0.  The Hanning
coefficient table g_hanning (cosf-based) is abstracted as window. -/
def windowLoad (window : ℕ → ℚ) (n : ℕ) (samples : List ℚ) : List Complex :=
  (List.range n).map fun i => ⟨samples.getD i 0 * window i, 0⟩

/-- Embeds the magnitude loop of computeBars in fft.h:
mag[i] = sqrtf(re*re + im*im) for i below half; sqrtf is abstracted as
msqrt. -/
def magnitudes (msqrt : ℚ → ℚ) (half : ℕ) (buf : List Complex) : List ℚ :=
  (List.range half).map fun i =>
    msqrt ((getC buf i).re * (getC buf i).re + (getC buf i).im * (getC buf i).im)

/-- The epsilon literal 1e-10 of computeBars in fft.h. -/
def EPS : ℚ := 1 / 10 ^ 10

/-- Embeds the per-bar tail of computeBars in fft.h: sum mag[k] for k from
lo to hi inclusive, count the iterations, average (0 when the count is 0),
db = 20*log10(avg / (FFT_SIZE*0.5) + 1e-10), norm = (db+60)/60, then clamp
into the unit interval; log10f is abstracted as lg. -/
def barValue (lg : ℚ → ℚ) (mag : List ℚ) (lo hi : ℤ) : ℚ :=
  let cnt : ℕ := (hi + 1 - lo).toNat
  let sum : ℚ := ((List.range cnt).map fun t => mag.getD (lo + t).toNat 0).sum
  let avg : ℚ := if 0 < cnt then sum / (cnt : ℚ) else 0
  let db : ℚ := 20 * lg (avg / ((FFT_SIZE : ℚ) * (1 / 2)) + EPS)
  let norm : ℚ := (db + 60) / 60
  if norm < 0 then 0 else if norm > 1 then 1 else norm

/-- Embeds computeBars from fft.h: window the samples, run the FFT, take
magnitudes of the first FFT_SIZE/2 bins, and produce one value per bar
from the bin range [binLo b, binHi b].  The precomputed tables g_hanning,
g_binLo, g_binHi are abstracted as the parameters window, binLo, binHi. -/
def computeBars (window : ℕ → ℚ) (tw : ℕ → Complex) (msqrt : ℚ → ℚ)
    (lg : ℚ → ℚ) (binLo binHi : ℕ → ℤ) (samples : List ℚ) : List ℚ :=
  let buf := fft tw FFT_SIZE (windowLoad window FFT_SIZE samples)
  let mag := magnitudes msqrt (FFT_SIZE / 2) buf
  (List.range BAR_COUNT).map fun b => barValue lg mag (binLo b) (binHi b)

/-- Embeds the C cast (int) applied to a nonnegative-or-negative rational:
truncation toward zero, Int.tdiv of numerator by denominator. -/
def cTrunc (q : ℚ) : ℤ := Int.tdiv q.num (q.den : ℤ)

/-- Embeds one iteration of the ensureBins loop in fft.h, with the two
float boundary frequencies fLo = freq i and fHi = freq (i+1) abstracted as
a parameter (in the program they are
FREQ_MIN * powf(FREQ_MAX/FREQ_MIN, i / BAR_COUNT), computed in float from
the constants of the missing protocol.h):
lo = (int)(fLo * FFT_SIZE / SAMPLE_RATE), likewise hi from fHi;
if lo < 1 then lo = 1; if hi >= FFT_SIZE/2 then hi = FFT_SIZE/2 - 1;
if hi < lo then hi = lo; the pair (g_binLo[i], g_binHi[i]). -/
def binEdge (freq : ℕ → ℚ) (i : ℕ) : ℤ × ℤ :=
  let lo0 := cTrunc (freq i * (FFT_SIZE : ℚ) / (SAMPLE_RATE : ℚ))
  let hi0 := cTrunc (freq (i + 1) * (FFT_SIZE : ℚ) / (SAMPLE_RATE : ℚ))
  let lo1 := if lo0 < 1 then 1 else lo0
  let hi1 := if hi0 ≥ (FFT_SIZE : ℤ) / 2 then (FFT_SIZE : ℤ) / 2 - 1 else hi0
  let hi2 := if hi1 < lo1 then lo1 else hi1
  (lo1, hi2)

/-- Modelled from the spec: the bin-edge derivation exactly as the claim
words it, with bin = round(f * FFT_SIZE / SAMPLE_RATE), the low bound
clamped to at least 1, the high bound clamped to at most FFT_SIZE/2 - 1,
and high collapsed to low when it falls below it.  Used only to compare
against binEdge, the derivation embedded from fft.h. -/
def specBinEdgeRound (freq : ℕ → ℚ) (i : ℕ) : ℤ × ℤ :=
  let lo0 := round (freq i * (FFT_SIZE : ℚ) / (SAMPLE_RATE : ℚ))
  let hi0 := round (freq (i + 1) * (FFT_SIZE : ℚ) / (SAMPLE_RATE : ℚ))
  let lo := if lo0 < 1 then 1 else lo0
  let hi := if (FFT_SIZE : ℤ) / 2 - 1 < hi0 then (FFT_SIZE : ℤ) / 2 - 1 else hi0
  if hi < lo then (lo, lo) else (lo, hi)

/-- Modelled from the spec: the same spec-worded derivation as
specBinEdgeRound but with the conversion amended to truncation toward
zero, which is what the C cast in fft.h performs. -/
def specBinEdgeTrunc (freq : ℕ → ℚ) (i : ℕ) : ℤ × ℤ :=
  let lo0 := cTrunc (freq i * (FFT_SIZE : ℚ) / (SAMPLE_RATE : ℚ))
  let hi0 := cTrunc (freq (i + 1) * (FFT_SIZE : ℚ) / (SAMPLE_RATE : ℚ))
  let lo := if lo0 < 1 then 1 else lo0
  let hi := if (FFT_SIZE : ℤ) / 2 - 1 < hi0 then (FFT_SIZE : ℤ) / 2 - 1 else hi0
  if hi < lo then (lo, lo) else (lo, hi)

/-- Modelled from the spec: the per-bar value exactly as the claim words
it: arithmetic mean of the magnitudes over [lo, hi] inclusive (0 when the
range is empty), db = 20*log10(mean / (FFT_SIZE/2) + eps), normalization
(db + 60) / 60, and a clamp of the result into [0, 1].  Used only to
compare against barValue, the loop embedded from fft.h. -/
def specBarValue (lg : ℚ → ℚ) (mag : List ℚ) (lo hi : ℤ) : ℚ :=
  let mean : ℚ :=
    if hi < lo then 0
    else (((List.range (hi + 1 - lo).toNat).map
            fun t => mag.getD (lo + t).toNat 0).sum) / ((hi - lo + 1 : ℤ) : ℚ)
  let db : ℚ := 20 * lg (mean / ((FFT_SIZE : ℚ) / 2) + EPS)
  let norm : ℚ := (db + 60) / 60
  max 0 (min 1 norm)

/-- The frequency schedule used as a concrete counterexample input: its
first boundary maps to exactly 10.5 FFT bins, where truncation and
rounding disagree. -/
def cexFreq : ℕ → ℚ := fun k => if k = 0 then 231525 / 512 else 165375 / 128

/-- Environment of one main-loop iteration in main.cpp: the value of the
shared flag g_running at the top of the loop, whether ws.hasClient() holds
after ws.poll() (the WebSocket server internals of the missing ws_server.h
are abstracted to this flag, per the single-threaded loop), whether
pa_simple_read succeeds, and the microsecond value of Clock::now(). -/
structure Env where
  running : Bool
  hasClient : Bool
  readOk : Bool
  now : ℤ
deriving DecidableEq, Repr

/-- Observable actions of the main loop in main.cpp. -/
inductive Act where
  | poll : Act
  | sleepIdle : Act
  | readAudio : Act
  | compute : Act
  | send : ℤ → Act
  | freeAudio : Act
  | stopServer : Act
  | exitZero : Act
deriving DecidableEq, BEq, Repr

/-- The send interval of main.cpp: microseconds(1000000 / SEND_FPS). -/
def frameInterval : ℤ := 1000000 / (SEND_FPS : ℤ)

/-- The shutdown tail of main.cpp after the while loop:
pa_simple_free(pa); ws.stop(); return 0. -/
def shutdownActs : List Act := [Act.freeAudio, Act.stopServer, Act.exitZero]

/-- Embeds the while (g_running) loop of main.cpp over a finite list of
per-iteration environments, threading nextSend.  Each live iteration
polls; with no client it sleeps 50 ms and continues without reading; with
a client it reads (a failed read breaks the loop into the shutdown tail),
computes the bars, and sends exactly when now >= nextSend, setting
nextSend = now + frameInterval.  An exhausted environment list leaves the
loop still running (an open observation window). -/
def runLoop : List Env → ℤ → List Act
  | [], _ => []
  | e :: rest, ns =>
    if e.running = false then shutdownActs
    else if e.hasClient = false then
      Act.poll :: Act.sleepIdle :: runLoop rest ns
    else if e.readOk = false then
      Act.poll :: Act.readAudio :: shutdownActs
    else if ns ≤ e.now then
      Act.poll :: Act.readAudio :: Act.compute :: Act.send e.now ::
        runLoop rest (e.now + frameInterval)
    else
      Act.poll :: Act.readAudio :: Act.compute :: runLoop rest ns

/-- The times at which frames were sent in a trace. -/
def sendTimes (tr : List Act) : List ℤ :=
  tr.filterMap fun a => match a with | Act.send t => some t | _ => none

/-- The number of audio reads in a trace. -/
def readCount (tr : List Act) : ℕ :=
  tr.countP fun a => a == Act.readAudio

end ClearVis

namespace ClearVis

lemma cTrunc_eq_floor {q : ℚ} (hq : 0 ≤ q) : cTrunc q = ⌊q⌋ := by
  rw [cTrunc, Int.tdiv_eq_ediv (by exact_mod_cast Rat.num_nonneg.mpr hq)
    (Int.natCast_nonneg q.den), Rat.floor_def]

/-- C1, the claim as stated is false on the code: the bin-edge derivation
of ensureBins in fft.h converts a frequency to a bin index with the C cast
(int), which truncates, not with round.  At the concrete boundary
frequencies cexFreq (whose first boundary maps to exactly 10.5 bins) the
code derivation yields the edge pair (10, 30) while the claimed
round-based derivation yields (11, 30). -/
theorem bin_edge_round_claim_false :
    binEdge cexFreq 0 ≠ specBinEdgeRound cexFreq 0 := by
  have h0 : cexFreq 0 * (FFT_SIZE : ℚ) / (SAMPLE_RATE : ℚ) = 21 / 2 := by
    norm_num [cexFreq, FFT_SIZE, SAMPLE_RATE]
  have h1 : cexFreq (0 + 1) * (FFT_SIZE : ℚ) / (SAMPLE_RATE : ℚ) = 30 := by
    norm_num [cexFreq, FFT_SIZE, SAMPLE_RATE]
  have hn0 : (21 / 2 : ℚ).num = 21 := by norm_num [Rat.num]
  have hd0 : (21 / 2 : ℚ).den = 2 := by norm_num [Rat.den]
  have ht0 : cTrunc (21 / 2 : ℚ) = 10 := by
    rw [cTrunc, hn0, hd0]
    decide
  have hn1 : (30 : ℚ).num = 30 := by norm_num [Rat.num]
  have hd1 : (30 : ℚ).den = 1 := by norm_num [Rat.den]
  have ht1 : cTrunc (30 : ℚ) = 30 := by
    rw [cTrunc, hn1, hd1]
    decide
  have hr0 : round (21 / 2 : ℚ) = 11 := by norm_num [round_eq]
  have hr1 : round (30 : ℚ) = 30 := by norm_num [round_eq]
  simp only [binEdge, specBinEdgeRound, h0, h1, ht0, ht1, hr0, hr1]
  norm_num [FFT_SIZE]

/-- C1 as amended: for every boundary-frequency schedule and every bar
index, the bin edges produced by the derivation of ensureBins in fft.h
equal the spec-worded derivation with the conversion amended from
rounding to truncation toward zero (the C (int) cast): clamping the low
bound to at least 1, the high bound to at most FFT_SIZE/2 - 1, and
collapsing high to low when it falls below it. -/
theorem bin_edge_matches_spec_trunc (freq : ℕ → ℚ) (i : ℕ) :
    binEdge freq i = specBinEdgeTrunc freq i := by
  simp only [binEdge, specBinEdgeTrunc]
  split_ifs <;> simp_all [Prod.mk.injEq] <;> omega

end ClearVis

namespace ClearVis

/-- All entries of a complex buffer are the zero complex value. -/
def allZero (l : List Complex) : Prop := ∀ z ∈ l, z = czero

lemma foldl_inv {σ β : Type} (P : σ → Prop) (f : σ → β → σ)
    (hf : ∀ s b, P s → P (f s b)) :
    ∀ (l : List β) (s : σ), P s → P (l.foldl f s) := by
  intro l
  induction l with
  | nil => exact fun s hs => hs
  | cons a t ih => exact fun s hs => ih _ (hf s a hs)

lemma getC_allZero {l : List Complex} (h : allZero l) (i : ℕ) :
    getC l i = czero := by
  rw [getC, List.getD_eq_getElem?_getD]
  cases hx : l[i]? with
  | none => rfl
  | some x => exact h x (List.getElem?_mem hx)

lemma allZero_set {l : List Complex} (h : allZero l) {i : ℕ} :
    allZero (l.set i czero) := by
  intro z hz
  rcases List.mem_or_eq_of_mem_set hz with h' | h'
  · exact h z h'
  · exact h'

lemma cadd_zero_zero : cadd czero czero = czero := by
  simp [cadd, czero]

lemma csub_zero_zero : csub czero czero = czero := by
  simp [csub, czero]

lemma cmul_zero_right (w : Complex) : cmul w czero = czero := by
  simp [cmul, czero]

lemma innerLoop_allZero (wn : Complex) (i len : ℕ) {buf : List Complex}
    (h : allZero buf) : allZero (innerLoop wn i len buf) := by
  rw [innerLoop]
  refine foldl_inv (fun st : Complex × List Complex => allZero st.2) _
    ?_ (List.range (len / 2)) (⟨1, 0⟩, buf) h
  intro s b hs
  dsimp only
  rw [getC_allZero hs, getC_allZero hs, cmul_zero_right, cadd_zero_zero,
    csub_zero_zero]
  exact allZero_set (allZero_set hs)

lemma stageLoop_allZero (wn : Complex) (len n : ℕ) {buf : List Complex}
    (h : allZero buf) : allZero (stageLoop wn len n buf) := by
  rw [stageLoop]
  exact foldl_inv allZero _
    (fun s q hs => innerLoop_allZero wn (q * len) len hs)
    (List.range ((n + len - 1) / len)) buf h

lemma bitReverse_allZero {buf : List Complex} (h : allZero buf) (n : ℕ) :
    allZero (bitReverse buf n) := by
  rw [bitReverse]
  refine foldl_inv (fun st : ℕ × List Complex => allZero st.2) _
    ?_ (List.range (n - 1)) (0, buf) h
  intro s k hs
  dsimp only
  split
  · rw [getC_allZero hs, getC_allZero hs]
    exact allZero_set (allZero_set hs)
  · exact hs

lemma fft_allZero (tw : ℕ → Complex) (n : ℕ) {buf : List Complex}
    (h : allZero buf) : allZero (fft tw n buf) := by
  rw [fft]
  exact foldl_inv allZero _
    (fun s q hs => stageLoop_allZero _ _ n hs)
    (List.range (Nat.log2 n)) (bitReverse buf n) (bitReverse_allZero h n)

lemma windowLoad_zero (window : ℕ → ℚ) (n m : ℕ) :
    allZero (windowLoad window n (List.replicate m 0)) := by
  intro z hz
  rw [windowLoad] at hz
  simp only [List.mem_map, List.mem_range] at hz
  obtain ⟨i, _, rfl⟩ := hz
  have hz0 : (List.replicate m (0 : ℚ)).getD i 0 = 0 := by
    rw [List.getD_eq_getElem?_getD, List.getElem?_getD_replicate_default_eq]
  rw [czero, hz0, zero_mul]

lemma magnitudes_allZero {buf : List Complex} (msqrt : ℚ → ℚ) (half : ℕ)
    (h : allZero buf) (hms : msqrt 0 = 0) :
    ∀ v ∈ magnitudes msqrt half buf, v = 0 := by
  intro v hv
  simp only [magnitudes, List.mem_map, List.mem_range] at hv
  obtain ⟨i, _, rfl⟩ := hv
  rw [getC_allZero h]
  simpa [czero] using hms

/-- C4: for every power-of-two transform size 2 ^ k, applying the window
(any coefficient table) and then the transform of fft.h (bit-reversal
followed by the butterfly stages, for any twiddle values) to the all-zero
input block yields the all-zero complex buffer, and hence every bin
magnitude is zero (for any square root obeying msqrt 0 = 0, as sqrtf
does). -/
theorem fft_zero_input_all_zero (k : ℕ) (window : ℕ → ℚ) (tw : ℕ → Complex)
    (msqrt : ℚ → ℚ) (hms : msqrt 0 = 0) :
    (∀ z ∈ fft tw (2 ^ k) (windowLoad window (2 ^ k) (List.replicate (2 ^ k) 0)),
      z = czero) ∧
    (∀ v ∈ magnitudes msqrt (2 ^ k / 2)
        (fft tw (2 ^ k) (windowLoad window (2 ^ k) (List.replicate (2 ^ k) 0))),
      v = 0) := by
  have hz : allZero (fft tw (2 ^ k)
      (windowLoad window (2 ^ k) (List.replicate (2 ^ k) 0))) :=
    fft_allZero tw (2 ^ k) (windowLoad_zero window (2 ^ k) (2 ^ k))
  exact ⟨hz, magnitudes_allZero msqrt (2 ^ k / 2) hz hms⟩

/-- Witness for C4 at the concrete size 2 ^ 3 = 8, constant window 1 and
the all-zero square-root and twiddle functions. -/
theorem fft_zero_input_all_zero_witness :
    (∀ z ∈ fft (fun _ => czero) (2 ^ 3)
        (windowLoad (fun _ => 1) (2 ^ 3) (List.replicate (2 ^ 3) 0)),
      z = czero) ∧
    (∀ v ∈ magnitudes (fun _ => 0) (2 ^ 3 / 2)
        (fft (fun _ => czero) (2 ^ 3)
          (windowLoad (fun _ => 1) (2 ^ 3) (List.replicate (2 ^ 3) 0))),
      v = 0) :=
  fft_zero_input_all_zero 3 (fun _ => 1) (fun _ => czero) (fun _ => 0) rfl

end ClearVis

namespace ClearVis

lemma clamp01_mem (x : ℚ) :
    0 ≤ (if x < 0 then (0 : ℚ) else if x > 1 then 1 else x) ∧
      (if x < 0 then (0 : ℚ) else if x > 1 then 1 else x) ≤ 1 := by
  split_ifs with h1 h2
  · exact ⟨le_refl 0, zero_le_one⟩
  · exact ⟨zero_le_one, le_refl 1⟩
  · exact ⟨not_lt.mp h1, not_lt.mp h2⟩

lemma clamp01_of_nonpos {x : ℚ} (hx : x ≤ 0) :
    (if x < 0 then (0 : ℚ) else if x > 1 then 1 else x) = 0 := by
  split_ifs with h1 h2
  · rfl
  · linarith
  · linarith [not_lt.mp h1]

lemma barValue_mem_unit (lg : ℚ → ℚ) (mag : List ℚ) (lo hi : ℤ) :
    0 ≤ barValue lg mag lo hi ∧ barValue lg mag lo hi ≤ 1 := by
  simp only [barValue]
  exact clamp01_mem _

lemma getD_zero_of_allZeroQ {mag : List ℚ} (h : ∀ x ∈ mag, x = 0) (t : ℕ) :
    mag.getD t 0 = 0 := by
  rw [List.getD_eq_getElem?_getD]
  cases hx : mag[t]? with
  | none => rfl
  | some x => exact h x (List.getElem?_mem hx)

lemma barValue_zero_mag (lg : ℚ → ℚ) (mag : List ℚ) (lo hi : ℤ)
    (hmag : ∀ x ∈ mag, x = 0) (hlg : 20 * lg EPS + 60 ≤ 0) :
    barValue lg mag lo hi = 0 := by
  simp only [barValue]
  have hsum : ((List.range (hi + 1 - lo).toNat).map
      fun t => mag.getD (lo + t).toNat 0).sum = 0 := by
    apply List.sum_eq_zero
    intro x hx
    simp only [List.mem_map] at hx
    obtain ⟨t, _, rfl⟩ := hx
    exact getD_zero_of_allZeroQ hmag _
  rw [hsum]
  have havg : (if 0 < (hi + 1 - lo).toNat
      then (0 : ℚ) / ((hi + 1 - lo).toNat : ℚ) else 0) = 0 := by
    split_ifs <;> simp
  rw [havg, zero_div, zero_add]
  have hnorm : (20 * lg EPS + 60) / 60 ≤ 0 :=
    (div_le_iff₀ (by norm_num : (0 : ℚ) < 60)).mpr (by linarith)
  exact clamp01_of_nonpos hnorm

/-- C3: for every sample block (and for all window coefficients, twiddle
values, square-root and log functions, and bin edges), every value
produced by computeBars of fft.h lies in the closed interval from 0 to 1;
and the all-zero silence block of FFT_SIZE samples produces the all-zero
bar frame (msqrt 0 = 0 holds for sqrtf, and 20 * log10f(1e-10) + 60 is
about -140, so the hypothesis on lg holds for log10f). -/
theorem bar_frame_values_in_unit_interval (window : ℕ → ℚ) (tw : ℕ → Complex)
    (msqrt : ℚ → ℚ) (lg : ℚ → ℚ) (binLo binHi : ℕ → ℤ) (samples : List ℚ)
    (hms : msqrt 0 = 0) (hlg : 20 * lg EPS + 60 ≤ 0) :
    (∀ v ∈ computeBars window tw msqrt lg binLo binHi samples, 0 ≤ v ∧ v ≤ 1) ∧
    computeBars window tw msqrt lg binLo binHi (List.replicate FFT_SIZE 0) =
      List.replicate BAR_COUNT 0 := by
  constructor
  · intro v hv
    simp only [computeBars, List.mem_map, List.mem_range] at hv
    obtain ⟨b, _, rfl⟩ := hv
    exact barValue_mem_unit lg _ (binLo b) (binHi b)
  · simp only [computeBars]
    have hz : allZero (fft tw FFT_SIZE
        (windowLoad window FFT_SIZE (List.replicate FFT_SIZE 0))) :=
      fft_allZero tw FFT_SIZE (windowLoad_zero window FFT_SIZE FFT_SIZE)
    have hmag := magnitudes_allZero msqrt (FFT_SIZE / 2) hz hms
    rw [List.map_congr_left
      (fun b _ => barValue_zero_mag lg _ (binLo b) (binHi b) hmag hlg)]
    rw [List.map_const', List.length_range]

/-- Witness for C3 at the constant window 1, zero twiddles, zero square
root, constant log value -10, constant bin edges, and the empty sample
list. -/
theorem bar_frame_values_in_unit_interval_witness :
    (∀ v ∈ computeBars (fun _ => 1) (fun _ => czero) (fun _ => 0)
        (fun _ => -10) (fun _ => 1) (fun _ => 3) [], 0 ≤ v ∧ v ≤ 1) ∧
    computeBars (fun _ => 1) (fun _ => czero) (fun _ => 0) (fun _ => -10)
        (fun _ => 1) (fun _ => 3) (List.replicate FFT_SIZE 0) =
      List.replicate BAR_COUNT 0 :=
  bar_frame_values_in_unit_interval (fun _ => 1) (fun _ => czero) (fun _ => 0)
    (fun _ => -10) (fun _ => 1) (fun _ => 3) [] rfl (by norm_num)

end ClearVis

namespace ClearVis

lemma clamp_eq_max_min (x : ℚ) :
    (if x < 0 then (0 : ℚ) else if x > 1 then 1 else x) = max 0 (min 1 x) := by
  rcases lt_or_le x 0 with h | h
  · rw [if_pos h, max_eq_left (le_trans (min_le_right 1 x) h.le)]
  · rw [if_neg (not_lt.mpr h)]
    rcases lt_or_le 1 x with h2 | h2
    · rw [if_pos h2, min_eq_left h2.le, max_eq_right zero_le_one]
    · rw [if_neg (not_lt.mpr h2), min_eq_right h2, max_eq_right h]

lemma barValue_eq_specBarValue (lg : ℚ → ℚ) (mag : List ℚ) (lo hi : ℤ) :
    barValue lg mag lo hi = specBarValue lg mag lo hi := by
  simp only [barValue, specBarValue, mul_one_div]
  by_cases hlt : hi < lo
  · have hcnt : (hi + 1 - lo).toNat = 0 := by omega
    rw [hcnt, if_neg (lt_irrefl 0), if_pos hlt]
    exact clamp_eq_max_min _
  · have hpos : 0 < (hi + 1 - lo).toNat := by omega
    rw [if_pos hpos, if_neg hlt]
    have hcast : (((hi + 1 - lo).toNat : ℕ) : ℚ) = ((hi - lo + 1 : ℤ) : ℚ) := by
      have h1 : (((hi + 1 - lo).toNat : ℕ) : ℤ) = hi - lo + 1 := by omega
      exact_mod_cast h1
    rw [hcast]
    exact clamp_eq_max_min _

/-- C5: for every bar index below BAR_COUNT (and all window coefficients,
twiddle values, square-root and log functions, bin edges and samples), the
bar value produced by computeBars of fft.h equals the spec-worded loudness
mapping applied to the magnitudes: arithmetic mean over the inclusive bin
range (0 when empty), db = 20*log10(mean / (FFT_SIZE/2) + eps),
normalization (db + 60) / 60, and a clamp into [0, 1]. -/
theorem compute_bars_matches_spec_loudness (window : ℕ → ℚ) (tw : ℕ → Complex)
    (msqrt : ℚ → ℚ) (lg : ℚ → ℚ) (binLo binHi : ℕ → ℤ) (samples : List ℚ)
    (b : ℕ) (hb : b < BAR_COUNT) :
    (computeBars window tw msqrt lg binLo binHi samples).getD b 0 =
      specBarValue lg
        (magnitudes msqrt (FFT_SIZE / 2)
          (fft tw FFT_SIZE (windowLoad window FFT_SIZE samples)))
        (binLo b) (binHi b) := by
  simp only [computeBars]
  rw [List.getD_eq_getElem?_getD, List.getElem?_map, List.getElem?_range hb]
  simp only [Option.map_some', Option.getD_some]
  exact barValue_eq_specBarValue lg _ (binLo b) (binHi b)

/-- Witness for C5 at bar 0, constant parameter functions and the empty
sample list. -/
theorem compute_bars_matches_spec_loudness_witness :
    (computeBars (fun _ => 1) (fun _ => czero) (fun _ => 0) (fun _ => -10)
        (fun _ => 1) (fun _ => 3) []).getD 0 0 =
      specBarValue (fun _ => -10)
        (magnitudes (fun _ => 0) (FFT_SIZE / 2)
          (fft (fun _ => czero) FFT_SIZE (windowLoad (fun _ => 1) FFT_SIZE [])))
        (1 : ℤ) (3 : ℤ) :=
  compute_bars_matches_spec_loudness (fun _ => 1) (fun _ => czero) (fun _ => 0)
    (fun _ => -10) (fun _ => 1) (fun _ => 3) [] 0 (by decide)

end ClearVis

namespace ClearVis

/-- C2: for every boundary-frequency schedule that is nonnegative,
non-decreasing, and below the Nyquist frequency SAMPLE_RATE/2 on the bars
(as the log-spaced schedule between FREQ_MIN and FREQ_MAX is for
0 < FREQ_MIN <= FREQ_MAX <= SAMPLE_RATE/2), the bin edges produced by the
ensureBins derivation of fft.h satisfy 1 <= low <= high <= FFT_SIZE/2 - 1
for every bar, and both edges are non-decreasing in the bar index. -/
theorem bin_edges_invariant (freq : ℕ → ℚ)
    (h0 : ∀ i, 0 ≤ freq i)
    (hm : ∀ i, freq i ≤ freq (i + 1))
    (hb : ∀ i, i < BAR_COUNT → freq i < (SAMPLE_RATE : ℚ) / 2) :
    (∀ i, i < BAR_COUNT →
      1 ≤ (binEdge freq i).1 ∧ (binEdge freq i).1 ≤ (binEdge freq i).2 ∧
        (binEdge freq i).2 ≤ (FFT_SIZE : ℤ) / 2 - 1) ∧
    (∀ i, i + 1 < BAR_COUNT →
      (binEdge freq i).1 ≤ (binEdge freq (i + 1)).1 ∧
        (binEdge freq i).2 ≤ (binEdge freq (i + 1)).2) := by
  have hxn : ∀ j, 0 ≤ freq j * (FFT_SIZE : ℚ) / (SAMPLE_RATE : ℚ) := fun j =>
    div_nonneg (mul_nonneg (h0 j) (by positivity)) (by positivity)
  have hfl : ∀ j, cTrunc (freq j * (FFT_SIZE : ℚ) / (SAMPLE_RATE : ℚ)) =
      ⌊freq j * (FFT_SIZE : ℚ) / (SAMPLE_RATE : ℚ)⌋ := fun j =>
    cTrunc_eq_floor (hxn j)
  have hge : ∀ j, 0 ≤ ⌊freq j * (FFT_SIZE : ℚ) / (SAMPLE_RATE : ℚ)⌋ := fun j =>
    Int.floor_nonneg.mpr (hxn j)
  have hub : ∀ j, j < BAR_COUNT →
      ⌊freq j * (FFT_SIZE : ℚ) / (SAMPLE_RATE : ℚ)⌋ ≤ 511 := by
    intro j hj
    have h2 := hb j hj
    have hS : ((SAMPLE_RATE : ℕ) : ℚ) = 44100 := by norm_num [SAMPLE_RATE]
    have hF : ((FFT_SIZE : ℕ) : ℚ) = 1024 := by norm_num [FFT_SIZE]
    have h1 : freq j * (FFT_SIZE : ℚ) / (SAMPLE_RATE : ℚ) < ((512 : ℤ) : ℚ) := by
      rw [hS, hF]
      rw [hS] at h2
      rw [div_lt_iff₀ (by norm_num : (0 : ℚ) < 44100)]
      push_cast
      linarith
    have := Int.floor_lt.mpr h1
    omega
  have hmono : ∀ j, ⌊freq j * (FFT_SIZE : ℚ) / (SAMPLE_RATE : ℚ)⌋ ≤
      ⌊freq (j + 1) * (FFT_SIZE : ℚ) / (SAMPLE_RATE : ℚ)⌋ := by
    intro j
    apply Int.floor_le_floor
    gcongr
    exact hm j
  have hF2 : (FFT_SIZE : ℤ) / 2 = 512 := by norm_num [FFT_SIZE]
  constructor
  · intro i hi
    have g1 := hge i
    have g2 := hge (i + 1)
    have g3 := hub i hi
    simp only [binEdge, hfl, hF2]
    split_ifs <;> omega
  · intro i hi
    have m1 := hmono i
    have m2 := hmono (i + 1)
    have g1 := hge i
    have g2 := hge (i + 1)
    have g3 := hge (i + 1 + 1)
    simp only [binEdge, hfl, hF2]
    split_ifs <;> omega

/-- Witness for C2 at the linear schedule freq i = 50 * (i + 1), which is
nonnegative, non-decreasing and stays below the Nyquist frequency on the
first BAR_COUNT boundaries. -/
theorem bin_edges_invariant_witness :
    (∀ i, i < BAR_COUNT →
      1 ≤ (binEdge (fun j => 50 * ((j : ℚ) + 1)) i).1 ∧
        (binEdge (fun j => 50 * ((j : ℚ) + 1)) i).1 ≤
          (binEdge (fun j => 50 * ((j : ℚ) + 1)) i).2 ∧
        (binEdge (fun j => 50 * ((j : ℚ) + 1)) i).2 ≤ (FFT_SIZE : ℤ) / 2 - 1) ∧
    (∀ i, i + 1 < BAR_COUNT →
      (binEdge (fun j => 50 * ((j : ℚ) + 1)) i).1 ≤
        (binEdge (fun j => 50 * ((j : ℚ) + 1)) (i + 1)).1 ∧
        (binEdge (fun j => 50 * ((j : ℚ) + 1)) i).2 ≤
          (binEdge (fun j => 50 * ((j : ℚ) + 1)) (i + 1)).2) :=
  bin_edges_invariant (fun j => 50 * ((j : ℚ) + 1))
    (fun j => by positivity)
    (fun j => by push_cast; linarith)
    (fun j hj => by
      have h24 : (j : ℚ) ≤ 23 := by
        have hlt : j < 24 := by simpa [BAR_COUNT] using hj
        exact_mod_cast Nat.lt_succ_iff.mp hlt
      have hS : ((SAMPLE_RATE : ℕ) : ℚ) = 44100 := by norm_num [SAMPLE_RATE]
      rw [hS]
      linarith)

end ClearVis

namespace ClearVis

lemma sendTimes_nil : sendTimes [] = [] := rfl

lemma sendTimes_cons_poll (tr : List Act) :
    sendTimes (Act.poll :: tr) = sendTimes tr := rfl

lemma sendTimes_cons_sleep (tr : List Act) :
    sendTimes (Act.sleepIdle :: tr) = sendTimes tr := rfl

lemma sendTimes_cons_read (tr : List Act) :
    sendTimes (Act.readAudio :: tr) = sendTimes tr := rfl

lemma sendTimes_cons_compute (tr : List Act) :
    sendTimes (Act.compute :: tr) = sendTimes tr := rfl

lemma sendTimes_cons_send (t : ℤ) (tr : List Act) :
    sendTimes (Act.send t :: tr) = t :: sendTimes tr := rfl

lemma sendTimes_shutdown : sendTimes shutdownActs = [] := rfl

lemma readCount_cons_poll (tr : List Act) :
    readCount (Act.poll :: tr) = readCount tr := by
  simp only [readCount, List.countP_cons]
  rfl

lemma readCount_cons_sleep (tr : List Act) :
    readCount (Act.sleepIdle :: tr) = readCount tr := by
  simp only [readCount, List.countP_cons]
  rfl

lemma readCount_cons_compute (tr : List Act) :
    readCount (Act.compute :: tr) = readCount tr := by
  simp only [readCount, List.countP_cons]
  rfl

lemma readCount_cons_send (t : ℤ) (tr : List Act) :
    readCount (Act.send t :: tr) = readCount tr := by
  simp only [readCount, List.countP_cons]
  rfl

lemma readCount_cons_read (tr : List Act) :
    readCount (Act.readAudio :: tr) = readCount tr + 1 := by
  simp only [readCount, List.countP_cons]
  rfl

lemma frameInterval_nonneg : 0 ≤ frameInterval := by decide

lemma runLoop_cons_live (x : Env) (rest : List Env) (ns : ℤ)
    (hrun : x.running = true) :
    runLoop (x :: rest) ns =
      if x.hasClient = false then Act.poll :: Act.sleepIdle :: runLoop rest ns
      else if x.readOk = false then Act.poll :: Act.readAudio :: shutdownActs
      else if ns ≤ x.now then
        Act.poll :: Act.readAudio :: Act.compute :: Act.send x.now ::
          runLoop rest (x.now + frameInterval)
      else Act.poll :: Act.readAudio :: Act.compute :: runLoop rest ns := by
  simp [runLoop, hrun]

/-- C6: over any run of the main loop of main.cpp in which no client is
ever attached, the loop performs zero audio reads: every live iteration
polls, sleeps briefly and re-polls without touching the audio stream, and
a signal-triggered shutdown performs no read either. -/
theorem idle_performs_no_reads :
    ∀ (envs : List Env) (ns : ℤ),
      (∀ e ∈ envs, e.hasClient = false) →
      readCount (runLoop envs ns) = 0 := by
  intro envs
  induction envs with
  | nil => intro ns _; rfl
  | cons e rest ih =>
    intro ns h
    have he := h e (List.mem_cons_self e rest)
    simp only [runLoop]
    by_cases hr : e.running = false
    · rw [if_pos hr]
      rfl
    · rw [if_neg hr, if_pos he, readCount_cons_poll, readCount_cons_sleep]
      exact ih ns fun x hx => h x (List.mem_cons_of_mem e hx)

/-- Witness for C6 with a two-iteration window with no attached client. -/
theorem idle_performs_no_reads_witness :
    readCount (runLoop [⟨true, false, true, 0⟩, ⟨true, false, true, 100⟩] 0) = 0 :=
  idle_performs_no_reads [⟨true, false, true, 0⟩, ⟨true, false, true, 100⟩] 0
    (by decide)

lemma sendTimes_runLoop_ge :
    ∀ (envs : List Env) (ns t : ℤ), t ∈ sendTimes (runLoop envs ns) → ns ≤ t := by
  intro envs
  induction envs with
  | nil =>
    intro ns t ht
    rw [show runLoop [] ns = [] from rfl, sendTimes_nil] at ht
    exact absurd ht (List.not_mem_nil t)
  | cons e rest ih =>
    intro ns t ht
    simp only [runLoop] at ht
    split_ifs at ht with h1 h2 h3 h4
    · rw [sendTimes_shutdown] at ht
      exact absurd ht (List.not_mem_nil t)
    · rw [sendTimes_cons_poll, sendTimes_cons_sleep] at ht
      exact ih ns t ht
    · rw [sendTimes_cons_poll, sendTimes_cons_read, sendTimes_shutdown] at ht
      exact absurd ht (List.not_mem_nil t)
    · rw [sendTimes_cons_poll, sendTimes_cons_read, sendTimes_cons_compute,
        sendTimes_cons_send] at ht
      rcases List.mem_cons.mp ht with h | h
      · omega
      · have := ih (e.now + frameInterval) t h
        have := frameInterval_nonneg
        omega
    · rw [sendTimes_cons_poll, sendTimes_cons_read, sendTimes_cons_compute] at ht
      exact ih ns t ht

lemma sendTimes_runLoop_chain :
    ∀ (envs : List Env) (ns : ℤ),
      List.Chain' (fun a b => a + frameInterval ≤ b) (sendTimes (runLoop envs ns)) := by
  intro envs
  induction envs with
  | nil =>
    intro ns
    rw [show runLoop [] ns = [] from rfl, sendTimes_nil]
    exact List.chain'_nil
  | cons e rest ih =>
    intro ns
    simp only [runLoop]
    split_ifs with h1 h2 h3 h4
    · rw [sendTimes_shutdown]
      exact List.chain'_nil
    · rw [sendTimes_cons_poll, sendTimes_cons_sleep]
      exact ih ns
    · rw [sendTimes_cons_poll, sendTimes_cons_read, sendTimes_shutdown]
      exact List.chain'_nil
    · rw [sendTimes_cons_poll, sendTimes_cons_read, sendTimes_cons_compute,
        sendTimes_cons_send]
      rw [List.chain'_cons']
      exact ⟨fun y hy => sendTimes_runLoop_ge rest (e.now + frameInterval) y
          (List.mem_of_mem_head? hy),
        ih (e.now + frameInterval)⟩
    · rw [sendTimes_cons_poll, sendTimes_cons_read, sendTimes_cons_compute]
      exact ih ns

lemma readCount_runLoop_ns :
    ∀ (envs : List Env) (ns nsAlt : ℤ),
      readCount (runLoop envs ns) = readCount (runLoop envs nsAlt) := by
  intro envs
  induction envs with
  | nil => intro ns nsAlt; rfl
  | cons e rest ih =>
    intro ns nsAlt
    simp only [runLoop]
    split_ifs with h1 h2 h3 h4 h5 h5 <;>
      simp only [readCount_cons_poll, readCount_cons_sleep, readCount_cons_read,
        readCount_cons_compute, readCount_cons_send] <;>
      first
        | rfl
        | exact ih ns nsAlt
        | exact congrArg (· + 1) (ih ns nsAlt)
        | exact congrArg (· + 1) (ih (e.now + frameInterval) nsAlt)
        | exact congrArg (· + 1) (ih ns (e.now + frameInterval))

lemma sendTimes_runLoop_no_client :
    ∀ (envs : List Env) (ns : ℤ),
      (∀ e ∈ envs, e.hasClient = false) →
      sendTimes (runLoop envs ns) = [] := by
  intro envs
  induction envs with
  | nil => intro ns _; rfl
  | cons e rest ih =>
    intro ns h
    have he := h e (List.mem_cons_self e rest)
    simp only [runLoop]
    by_cases hr : e.running = false
    · rw [if_pos hr]
      rfl
    · rw [if_neg hr, if_pos he, sendTimes_cons_poll, sendTimes_cons_sleep]
      exact ih ns fun x hx => h x (List.mem_cons_of_mem e hx)

/-- C7: in every run of the main loop of main.cpp, the times of
consecutive sent frames are at least frameInterval = 1000000 / SEND_FPS
microseconds apart (a frame is sent only when now has reached nextSend,
which a send resets to now + frameInterval, so the capture cadence never
forces sends faster than SEND_FPS); the number of audio reads performed
is the same whatever the send-pacing state nextSend is, so capture
proceeds each streaming iteration regardless of send pacing; and a run
with no attached client sends nothing at all. -/
theorem send_pacing_decoupled_from_capture (envs : List Env) (ns nsAlt : ℤ) :
    List.Chain' (fun a b => a + frameInterval ≤ b) (sendTimes (runLoop envs ns)) ∧
    readCount (runLoop envs ns) = readCount (runLoop envs nsAlt) ∧
    ((∀ e ∈ envs, e.hasClient = false) → sendTimes (runLoop envs ns) = []) :=
  ⟨sendTimes_runLoop_chain envs ns, readCount_runLoop_ns envs ns nsAlt,
    sendTimes_runLoop_no_client envs ns⟩

/-- Witness for C7 on a concrete three-iteration streaming window. -/
theorem send_pacing_decoupled_from_capture_witness :
    List.Chain' (fun a b => a + frameInterval ≤ b)
      (sendTimes (runLoop [⟨true, true, true, 5⟩, ⟨true, true, true, 9⟩,
        ⟨true, true, true, 30000⟩] 0)) ∧
    readCount (runLoop [⟨true, true, true, 5⟩, ⟨true, true, true, 9⟩,
        ⟨true, true, true, 30000⟩] 0) =
      readCount (runLoop [⟨true, true, true, 5⟩, ⟨true, true, true, 9⟩,
        ⟨true, true, true, 30000⟩] 7) ∧
    ((∀ e ∈ [(⟨true, true, true, 5⟩ : Env), ⟨true, true, true, 9⟩,
        ⟨true, true, true, 30000⟩], e.hasClient = false) →
      sendTimes (runLoop [⟨true, true, true, 5⟩, ⟨true, true, true, 9⟩,
        ⟨true, true, true, 30000⟩] 0) = []) :=
  send_pacing_decoupled_from_capture
    [⟨true, true, true, 5⟩, ⟨true, true, true, 9⟩, ⟨true, true, true, 30000⟩] 0 7

/-- C8: if the blocking audio read fails in a reached iteration of the
main loop of main.cpp (every earlier iteration continued: it was live and
either had no client or read successfully), the loop terminates there:
the remaining environments are never consulted, no further read is
attempted, and the trace ends with the failing read followed by the
shutdown sequence releasing the audio adapter, stopping the server, and
exiting with status 0. -/
theorem read_failure_triggers_shutdown (pre post : List Env) (e : Env) (ns : ℤ)
    (hpre : ∀ x ∈ pre, x.running = true ∧ (x.hasClient = false ∨ x.readOk = true))
    (he : e.running = true) (hc : e.hasClient = true) (hr : e.readOk = false) :
    runLoop (pre ++ e :: post) ns = runLoop (pre ++ [e]) ns ∧
    List.IsSuffix [Act.readAudio, Act.freeAudio, Act.stopServer, Act.exitZero]
      (runLoop (pre ++ e :: post) ns) := by
  induction pre generalizing ns with
  | nil =>
    simp only [List.nil_append]
    constructor
    · simp [runLoop, he, hc, hr]
    · rw [show runLoop (e :: post) ns =
          Act.poll :: Act.readAudio :: shutdownActs by simp [runLoop, he, hc, hr]]
      exact ⟨[Act.poll], rfl⟩
  | cons x pre ih =>
    have hx := hpre x (List.mem_cons_self x pre)
    have hpre2 : ∀ y ∈ pre, y.running = true ∧ (y.hasClient = false ∨ y.readOk = true) :=
      fun y hy => hpre y (List.mem_cons_of_mem x hy)
    rw [List.cons_append, List.cons_append,
      runLoop_cons_live x (pre ++ e :: post) ns hx.1,
      runLoop_cons_live x (pre ++ [e]) ns hx.1]
    by_cases hcl : x.hasClient = false
    · rw [if_pos hcl, if_pos hcl]
      obtain ⟨ht, hs⟩ := ih ns hpre2
      refine ⟨by rw [ht], ?_⟩
      exact hs.trans ((List.suffix_cons Act.sleepIdle _).trans
        (List.suffix_cons Act.poll _))
    · have hro : ¬x.readOk = false := by
        rcases hx.2 with h | h
        · exact absurd h hcl
        · rw [h]
          simp
      rw [if_neg hcl, if_neg hcl, if_neg hro, if_neg hro]
      by_cases hn : ns ≤ x.now
      · rw [if_pos hn, if_pos hn]
        obtain ⟨ht, hs⟩ := ih (x.now + frameInterval) hpre2
        refine ⟨by rw [ht], ?_⟩
        exact hs.trans (((List.suffix_cons (Act.send x.now) _).trans
          (List.suffix_cons Act.compute _)).trans
          ((List.suffix_cons Act.readAudio _).trans (List.suffix_cons Act.poll _)))
      · rw [if_neg hn, if_neg hn]
        obtain ⟨ht, hs⟩ := ih ns hpre2
        refine ⟨by rw [ht], ?_⟩
        exact hs.trans (((List.suffix_cons Act.compute _).trans
          (List.suffix_cons Act.readAudio _)).trans (List.suffix_cons Act.poll _))

/-- Witness for C8: a first successful streaming iteration, then a failed
read, with one further environment that the loop never consults. -/
theorem read_failure_triggers_shutdown_witness :
    runLoop ([⟨true, true, true, 5⟩] ++ (⟨true, true, false, 9⟩ : Env) ::
        [⟨true, true, true, 12⟩]) 0 =
      runLoop ([⟨true, true, true, 5⟩] ++ [⟨true, true, false, 9⟩]) 0 ∧
    List.IsSuffix [Act.readAudio, Act.freeAudio, Act.stopServer, Act.exitZero]
      (runLoop ([⟨true, true, true, 5⟩] ++ (⟨true, true, false, 9⟩ : Env) ::
        [⟨true, true, true, 12⟩]) 0) :=
  read_failure_triggers_shutdown [⟨true, true, true, 5⟩] [⟨true, true, true, 12⟩]
    ⟨true, true, false, 9⟩ 0 (by decide) rfl rfl rfl

end ClearVis
